import Mathlib

/-!
Verification of the knight's Isolation game engine: a shallow embedding of
the bitboard game state (`t_isolation.py`) and the alpha-beta search agent
(`my_custom_player.py`), together with theorems settling the specification
claims about them.
-/

namespace KnightIso

/-! ### Board geometry (t_isolation.py, module-level constants) -/

def WIDTH : Nat := 11

def HEIGHT : Nat := 9

def SIZE : Nat := (WIDTH + 2) * HEIGHT - 2

/-- The prototype bitboard: `HEIGHT` rows of `WIDTH` ones, each row shifted
by `WIDTH + 2` (two sentinel columns per row). -/
def BLANK_BOARD : Nat :=
  (List.range HEIGHT).foldl (fun b _ => (b <<< (WIDTH + 2)) ||| (2 ^ WIDTH - 1)) 0

def dirS : Int := -(WIDTH : Int) - 2

def dirN : Int := (WIDTH : Int) + 2

def dirW : Int := 1

def dirE : Int := -1

/-- The eight L-shaped knight steps, in the `Action` enumeration order of the
source (`NNE, ENE, ESE, SSE, SSW, WSW, WNW, NNW`). -/
def knightOffsets : List Int :=
  [dirN + dirN + dirE, dirE + dirN + dirE, dirE + dirS + dirE, dirS + dirS + dirE,
   dirS + dirS + dirW, dirW + dirS + dirW, dirW + dirN + dirW, dirN + dirN + dirW]

/-! ### Game state -/

/-- The `Isolation` named tuple: bitboard, ply counter and the two player
locations (`none` while a player has not yet been placed). -/
structure Isolation where
  board : Nat
  ply_count : Nat
  locs : Option Int × Option Int
deriving DecidableEq

/-- The canonical start state `Isolation()`: blank board, ply 0, no one placed. -/
def startState : Isolation := ⟨BLANK_BOARD, 0, (none, none)⟩

/-- `locs[i]` for `i ∈ {0, 1}`. -/
def Isolation.loc (s : Isolation) (i : Nat) : Option Int :=
  if i = 0 then s.locs.1 else s.locs.2

/-- `Isolation.player`: the active player id, `ply_count % 2`. -/
def Isolation.player (s : Isolation) : Nat := s.ply_count % 2

/-- `Isolation.liberties(loc)`: open cells in the neighborhood of `loc`; the
whole-board scan when `loc` is `None`.  The filter keeps `c` with
`c >= 0 and board & (1 << c)`, exactly as the source comprehension. -/
def Isolation.liberties (s : Isolation) (loc : Option Int) : List Int :=
  (match loc with
   | none => (List.range SIZE).map Int.ofNat
   | some l => knightOffsets.map (fun a => l + a)).filter
    (fun c => decide (0 ≤ c) && s.board.testBit c.toNat)

/-- `Isolation.actions()`: every open cell on the opening move, otherwise the
knight offsets `a` with `(a + loc) >= 0 and board & (1 << (a + loc))`. -/
def Isolation.actions (s : Isolation) : List Int :=
  match s.loc s.player with
  | none => s.liberties none
  | some loc =>
      knightOffsets.filter (fun a => decide (0 ≤ a + loc) && s.board.testBit (a + loc).toNat)

/-- The candidate absolute cell that `result(action)` computes:
`int(action) + player_location`, with an unset location read as `0`. -/
def Isolation.targetCell (s : Isolation) (action : Int) : Int :=
  action + ((s.loc s.player).getD 0)

/-- The distinct ways the Python engine can raise: the assert on a non-opening
action outside the offset set (`AssertionError`), the `1 << negative` shift
(`ValueError`), the blocked-cell `RuntimeError`, and the `TypeError` that a
`None` search value would produce in a comparison (also the `IndexError` of
`random.choice` on an empty list). -/
inductive MoveError where
  | badAction
  | negShift
  | blocked
  | typeErr
deriving DecidableEq

/-- `Isolation.result(action)`: validate the action, compute the target cell,
fail when its bit is not set, otherwise clear the bit, bump `ply_count` and
move the active player there. -/
def Isolation.result (s : Isolation) (action : Int) : Except MoveError Isolation :=
  if (s.loc s.player).isSome = true ∧ action ∉ knightOffsets then .error .badAction
  else if s.targetCell action < 0 then .error .negShift
  else if s.board.testBit (s.targetCell action).toNat = false then .error .blocked
  else .ok ⟨s.board ^^^ (1 <<< (s.targetCell action).toNat), s.ply_count + 1,
    if s.player = 1 then (s.locs.1, some (s.targetCell action))
    else (some (s.targetCell action), s.locs.2)⟩

/-- Total version of `result`, defaulting to `s` on error; the error branch is
never taken when the action comes from `actions()`. -/
def Isolation.resultD (s : Isolation) (action : Int) : Isolation :=
  match s.result action with
  | .ok t => t
  | .error _ => s

/-- `Isolation._has_liberties(player_id)`: Python's `any(...)` over the liberty
list, which tests the *truthiness* of each cell index — cell `0` is falsy. -/
def Isolation.has_liberties (s : Isolation) (player_id : Nat) : Bool :=
  (s.liberties (s.loc player_id)).any (fun c => c != 0)

/-- `Isolation.terminal_test()`: `not (_has_liberties(0) and _has_liberties(1))`. -/
def Isolation.terminal_test (s : Isolation) : Bool :=
  !(s.has_liberties 0 && s.has_liberties 1)

/-! ### Search values: the Python floats `-inf`, finite ints, `+inf` -/

/-- Values flowing through the search: `float("-inf")`, finite integers (the
heuristic scores), and `float("inf")`. -/
inductive Val where
  | ninf
  | fin (n : Int)
  | pinf
deriving DecidableEq

/-- Python `<` on these values (no NaN can arise). -/
def Val.blt : Val → Val → Bool
  | .ninf, .ninf => false
  | .ninf, _ => true
  | _, .ninf => false
  | .pinf, _ => false
  | .fin _, .pinf => true
  | .fin a, .fin b => decide (a < b)

/-- `Isolation.utility(player_id)`: `0` when not terminal, otherwise `+inf`
exactly when `active_has_liberties == player_id_is_active`, else `-inf`. -/
def Isolation.utility (s : Isolation) (player_id : Nat) : Val :=
  if s.terminal_test = false then .fin 0
  else
    let player_id_is_active : Bool := decide (player_id = s.player)
    let active_has_liberties : Bool := s.has_liberties s.player
    if active_has_liberties == player_id_is_active then .pinf else .ninf

/-- `CustomPlayer.score_state`: the mobility differential
`len(liberties(locs[pid])) - len(liberties(locs[1 - pid]))`. -/
def score_state (s : Isolation) (player_id : Nat) : Int :=
  ((s.liberties (s.loc player_id)).length : Int)
    - ((s.liberties (s.loc (1 - player_id))).length : Int)

instance {ε α : Type} [DecidableEq ε] [DecidableEq α] : DecidableEq (Except ε α) := fun x y =>
  match x, y with
  | .ok a, .ok b =>
      if h : a = b then .isTrue (by rw [h]) else .isFalse (by intro hc; cases hc; exact h rfl)
  | .error a, .error b =>
      if h : a = b then .isTrue (by rw [h]) else .isFalse (by intro hc; cases hc; exact h rfl)
  | .ok _, .error _ => .isFalse (by intro h; cases h)
  | .error _, .ok _ => .isFalse (by intro h; cases h)

/-! ### Sanity checks against the spec's concrete scenarios -/

example : SIZE = 115 := by decide

example : knightOffsets = [25, 11, -15, -27, -25, -11, 15, 27] := by decide

example : (startState.liberties none).length = 99 := by decide

example : startState.result 57 =
    .ok ⟨BLANK_BOARD ^^^ (1 <<< 57), 1, (some 57, none)⟩ := by decide

example : (startState.resultD 57).board.testBit 57 = false := by decide

example : (startState.resultD 57).player = 1 := by decide

/-! ### Basic facts about the state operations -/

theorem player_lt_two (s : Isolation) : s.player < 2 :=
  Nat.mod_lt _ (by norm_num)

/-- A cell is open: nonnegative index with its board bit set (the combined
`c >= 0 and board & (1 << c)` test of the source comprehensions). -/
def openCell (board : Nat) (c : Int) : Bool :=
  decide (0 ≤ c) && board.testBit c.toNat

theorem mem_actions_none {s : Isolation} {a : Int} (h0 : s.loc s.player = none) :
    a ∈ s.actions ↔ a ∈ (List.range SIZE).map Int.ofNat ∧ openCell s.board a = true := by
  simp only [Isolation.actions, h0, Isolation.liberties, List.mem_filter, openCell]

theorem mem_actions_some {s : Isolation} {a l : Int} (h0 : s.loc s.player = some l) :
    a ∈ s.actions ↔ a ∈ knightOffsets ∧ openCell s.board (a + l) = true := by
  simp only [Isolation.actions, h0, List.mem_filter, openCell]

theorem mem_liberties_some {s : Isolation} {c l : Int} :
    c ∈ s.liberties (some l) ↔ (∃ a ∈ knightOffsets, c = l + a) ∧ openCell s.board c = true := by
  simp only [Isolation.liberties, List.mem_filter, List.mem_map, openCell]
  constructor
  · rintro ⟨⟨a, ha, rfl⟩, h⟩; exact ⟨⟨a, ha, rfl⟩, h⟩
  · rintro ⟨⟨a, ha, rfl⟩, h⟩; exact ⟨⟨a, ha, rfl⟩, h⟩

theorem targetCell_none {s : Isolation} {a : Int} (h0 : s.loc s.player = none) :
    s.targetCell a = a := by
  simp [Isolation.targetCell, h0]

theorem targetCell_some {s : Isolation} {a l : Int} (h0 : s.loc s.player = some l) :
    s.targetCell a = a + l := by
  simp [Isolation.targetCell, h0]

theorem xor_bit_self {b : Nat} {n : Nat} (hb : b.testBit n = true) :
    (b ^^^ (1 <<< n)).testBit n = false := by
  rw [Nat.testBit_xor, Nat.shiftLeft_eq, one_mul, hb, Nat.testBit_two_pow_self]
  rfl

theorem xor_bit_other (b : Nat) {n i : Nat} (h : i ≠ n) :
    (b ^^^ (1 <<< n)).testBit i = b.testBit i := by
  rw [Nat.testBit_xor, Nat.shiftLeft_eq, one_mul, Nat.testBit_two_pow_of_ne (Ne.symm h)]
  cases b.testBit i <;> rfl

/-- The successful branch of `result`, spelled out. -/
theorem result_ok_of {s : Isolation} {a : Int}
    (hval : (s.loc s.player).isSome = true → a ∈ knightOffsets)
    (hnn : 0 ≤ s.targetCell a)
    (hbit : s.board.testBit (s.targetCell a).toNat = true) :
    s.result a = .ok ⟨s.board ^^^ (1 <<< (s.targetCell a).toNat), s.ply_count + 1,
      if s.player = 1 then (s.locs.1, some (s.targetCell a))
      else (some (s.targetCell a), s.locs.2)⟩ := by
  have h1 : ¬((s.loc s.player).isSome = true ∧ a ∉ knightOffsets) := by
    rintro ⟨hs, hn⟩; exact hn (hval hs)
  rw [Isolation.result, if_neg h1, if_neg (Int.not_lt.mpr hnn), if_neg (by simp [hbit])]

/-- Claim C2: applying any legal action succeeds, clears exactly the target
bit, bumps `ply_count` by one, moves the active player to the target and
leaves the opponent in place. -/
theorem result_applies_action (s : Isolation) (a : Int) (h : a ∈ s.actions) :
    ∃ t, s.result a = .ok t ∧
      t.board.testBit (s.targetCell a).toNat = false ∧
      t.ply_count = s.ply_count + 1 ∧
      t.loc s.player = some (s.targetCell a) ∧
      t.loc (1 - s.player) = s.loc (1 - s.player) ∧
      ∀ i : Nat, i ≠ (s.targetCell a).toNat → t.board.testBit i = s.board.testBit i := by
  have hopen : openCell s.board (s.targetCell a) = true ∧
      ((s.loc s.player).isSome = true → a ∈ knightOffsets) := by
    cases h0 : s.loc s.player with
    | none =>
        rcases (mem_actions_none h0).1 h with ⟨-, hc⟩
        exact ⟨by rwa [targetCell_none h0], by simp [h0]⟩
    | some l =>
        rcases (mem_actions_some h0).1 h with ⟨hmem, hc⟩
        exact ⟨by rwa [targetCell_some h0], fun _ => hmem⟩
  rcases hopen with ⟨hc, hval⟩
  rw [openCell, Bool.and_eq_true, decide_eq_true_iff] at hc
  rcases hc with ⟨hnn, hbit⟩
  refine ⟨_, result_ok_of hval hnn hbit, xor_bit_self hbit, rfl, ?_, ?_, ?_⟩
  · rcases Nat.mod_two_eq_zero_or_one s.ply_count with hp | hp <;>
      simp [Isolation.loc, Isolation.player, hp]
  · rcases Nat.mod_two_eq_zero_or_one s.ply_count with hp | hp <;>
      simp [Isolation.loc, Isolation.player, hp]
  · intro i hi
    exact xor_bit_other _ hi

/-- Witness for C2 at the opening move to cell 57 from the start state. -/
theorem result_applies_action_check :
    (57 : Int) ∈ startState.actions ∧
      ∃ t, startState.result 57 = .ok t ∧
        t.board.testBit (startState.targetCell 57).toNat = false ∧
        t.ply_count = startState.ply_count + 1 ∧
        t.loc startState.player = some (startState.targetCell 57) ∧
        t.loc (1 - startState.player) = startState.loc (1 - startState.player) ∧
        ∀ i : Nat, i ≠ (startState.targetCell 57).toNat →
          t.board.testBit i = startState.board.testBit i :=
  ⟨by decide, result_applies_action startState 57 (by decide)⟩

/-- Claim C3: `result` fails exactly when the candidate target cell is not an
open cell, or the mover is already placed and the action is not one of the
eight knight offsets; there is no further failure mode. -/
theorem result_error_characterization (s : Isolation) (a : Int) :
    (∃ e, s.result a = .error e) ↔
      (openCell s.board (s.targetCell a) = false ∨
        ((s.loc s.player).isSome = true ∧ a ∉ knightOffsets)) := by
  by_cases h1 : (s.loc s.player).isSome = true ∧ a ∉ knightOffsets
  · constructor
    · intro; exact Or.inr h1
    · intro; exact ⟨.badAction, by rw [Isolation.result, if_pos h1]⟩
  · by_cases h2 : s.targetCell a < 0
    · constructor
      · intro
        refine Or.inl ?_
        simp [openCell, Int.not_le.mpr h2]
      · intro
        exact ⟨.negShift, by rw [Isolation.result, if_neg h1, if_pos h2]⟩
    · by_cases h3 : s.board.testBit (s.targetCell a).toNat = false
      · constructor
        · intro
          refine Or.inl ?_
          simp [openCell, h3]
        · intro
          exact ⟨.blocked, by rw [Isolation.result, if_neg h1, if_neg h2, if_pos h3]⟩
      · have hok : s.result a = .ok _ :=
          result_ok_of (fun hs => by_contra fun hn => h1 ⟨hs, hn⟩)
            (Int.not_lt.mp h2) (by simpa using h3)
        constructor
        · rintro ⟨e, he⟩
          rw [hok] at he
          cases he
        · rintro (hco | hc1)
          · exfalso
            have hx : decide (0 ≤ s.targetCell a) = true :=
              decide_eq_true_iff.mpr (Int.not_lt.mp h2)
            have hy : s.board.testBit (s.targetCell a).toNat = true := by simpa using h3
            rw [openCell, hx, hy] at hco
            cases hco
          · exact absurd hc1 h1

/-! ### Reachable states and invariants -/

/-- States reachable from the canonical start state by legal actions. -/
inductive Reachable : Isolation → Prop where
  | start : Reachable startState
  | step {s : Isolation} {a : Int} {t : Isolation} :
      Reachable s → a ∈ s.actions → s.result a = .ok t → Reachable t

/-- Inverting a successful `result` on a legal action. -/
theorem result_ok_inversion {s : Isolation} {a : Int} {t : Isolation}
    (hmem : a ∈ s.actions) (hok : s.result a = .ok t) :
    0 ≤ s.targetCell a ∧ s.board.testBit (s.targetCell a).toNat = true ∧
      t = ⟨s.board ^^^ (1 <<< (s.targetCell a).toNat), s.ply_count + 1,
        if s.player = 1 then (s.locs.1, some (s.targetCell a))
        else (some (s.targetCell a), s.locs.2)⟩ := by
  have hopen : openCell s.board (s.targetCell a) = true ∧
      ((s.loc s.player).isSome = true → a ∈ knightOffsets) := by
    cases h0 : s.loc s.player with
    | none =>
        rcases (mem_actions_none h0).1 hmem with ⟨-, hc⟩
        exact ⟨by rwa [targetCell_none h0], by simp [h0]⟩
    | some l =>
        rcases (mem_actions_some h0).1 hmem with ⟨hin, hc⟩
        exact ⟨by rwa [targetCell_some h0], fun _ => hin⟩
  rcases hopen with ⟨hc, hval⟩
  rw [openCell, Bool.and_eq_true, decide_eq_true_iff] at hc
  rcases hc with ⟨hnn, hbit⟩
  refine ⟨hnn, hbit, ?_⟩
  have := result_ok_of hval hnn hbit
  rw [this] at hok
  exact (Except.ok.injEq _ _).mp hok.symm

/-- Claim C7: in every reachable state, a placed player stands on a cell whose
board bit is cleared. -/
theorem reachable_locs_closed (s : Isolation) (h : Reachable s) :
    (∀ l : Int, s.locs.1 = some l → 0 ≤ l ∧ s.board.testBit l.toNat = false) ∧
    (∀ l : Int, s.locs.2 = some l → 0 ≤ l ∧ s.board.testBit l.toNat = false) := by
  induction h with
  | start =>
      constructor <;> · intro l hl; simp [startState] at hl
  | @step s a t _ hmem hok ih =>
      rcases result_ok_inversion hmem hok with ⟨hnn, hbit, rfl⟩
      have bit_of_old : ∀ l : Int, 0 ≤ l → s.board.testBit l.toNat = false →
          (s.board ^^^ (1 <<< (s.targetCell a).toNat)).testBit l.toNat = false := by
        intro l _ hold
        have hne : l.toNat ≠ (s.targetCell a).toNat := by
          intro he
          rw [he, hbit] at hold
          cases hold
        rw [xor_bit_other _ hne]
        exact hold
      by_cases hp : s.player = 1
      · simp only [hp, if_pos]
        constructor
        · intro l hl
          rcases ih.1 l hl with ⟨h1, h2⟩
          exact ⟨h1, bit_of_old l h1 h2⟩
        · intro l hl
          cases hl
          exact ⟨hnn, xor_bit_self hbit⟩
      · simp only [hp, if_neg, if_false]
        constructor
        · intro l hl
          cases hl
          exact ⟨hnn, xor_bit_self hbit⟩
        · intro l hl
          rcases ih.2 l hl with ⟨h1, h2⟩
          exact ⟨h1, bit_of_old l h1 h2⟩

/-- Witness for C7: after the opening move to 57, player 0 stands on a closed
cell. -/
theorem reachable_locs_closed_check :
    0 ≤ (57 : Int) ∧ (startState.resultD 57).board.testBit (57 : Int).toNat = false :=
  (reachable_locs_closed (startState.resultD 57)
    (@Reachable.step startState 57 (startState.resultD 57)
      Reachable.start (by decide) (by decide))).1 57 (by decide)

theorem blank_lt : BLANK_BOARD < 2 ^ SIZE := by decide

theorem blank_sentinel :
    ∀ i : Nat, i < SIZE → 11 ≤ i % (WIDTH + 2) → BLANK_BOARD.testBit i = false := by decide

/-- Claim C10: every reachable board is a submask of the blank board, hence
sentinel-column bits and bits at or above `SIZE` are all zero. -/
theorem board_submask_invariant (s : Isolation) (h : Reachable s) :
    (∀ i : Nat, s.board.testBit i = true → BLANK_BOARD.testBit i = true) ∧
    (∀ i : Nat, SIZE ≤ i → s.board.testBit i = false) ∧
    (∀ i : Nat, i < SIZE → 11 ≤ i % (WIDTH + 2) → s.board.testBit i = false) := by
  have hsub : ∀ i : Nat, s.board.testBit i = true → BLANK_BOARD.testBit i = true := by
    induction h with
    | start => intro i hi; exact hi
    | @step s a t _ hmem hok ih =>
        rcases result_ok_inversion hmem hok with ⟨-, hbit, rfl⟩
        intro i hi
        by_cases hne : i = (s.targetCell a).toNat
        · rw [hne, xor_bit_self hbit] at hi
          cases hi
        · rw [xor_bit_other _ hne] at hi
          exact ih i hi
  refine ⟨hsub, ?_, ?_⟩
  · intro i hi
    cases hb : s.board.testBit i with
    | false => rfl
    | true =>
        have := hsub i hb
        rw [Nat.testBit_eq_false_of_lt
          (lt_of_lt_of_le blank_lt (Nat.pow_le_pow_right (by norm_num) hi))] at this
        cases this
  · intro i hi hsent
    cases hb : s.board.testBit i with
    | false => rfl
    | true =>
        have := hsub i hb
        rw [blank_sentinel i hi hsent] at this
        cases this

/-- Witness for C10 at the start state: a bit above `SIZE` and a sentinel bit
are both clear. -/
theorem board_submask_invariant_check :
    startState.board.testBit 120 = false ∧ startState.board.testBit 11 = false :=
  ⟨(board_submask_invariant startState Reachable.start).2.1 120 (by decide),
   (board_submask_invariant startState Reachable.start).2.2 11 (by decide) (by decide)⟩

/-! ### C4: the in-bounds filter in `actions` -/

/-- Modelled from the claim's words for C4: like `actions`, but filtering with
the full Board Geometry in-bounds test `0 ≤ index < SIZE` instead of the
source's lower-bound-only test. -/
def actionsSpec (s : Isolation) : List Int :=
  match s.loc s.player with
  | none => s.liberties none
  | some loc =>
      knightOffsets.filter (fun a =>
        decide (0 ≤ a + loc) && decide (a + loc < (SIZE : Int)) &&
          s.board.testBit (a + loc).toNat)

/-- C4 counterexample: on a board with a bit set above `SIZE`, `actions`
admits a move whose landing index is out of bounds, so the claimed in-bounds
characterization fails. -/
theorem actions_inbounds_cex :
    Isolation.actions ⟨2 ^ 120, 1, (none, some 95)⟩ ≠
      actionsSpec ⟨2 ^ 120, 1, (none, some 95)⟩ := by decide

/-- C4 amended: on any state whose board is a submask of the blank board — in
particular on every reachable state — `actions` agrees with the claim's
in-bounds filtering (and the opening branch scans all `SIZE` cells as
claimed). -/
theorem actions_inbounds_submask (s : Isolation)
    (hsub : ∀ i : Nat, s.board.testBit i = true → BLANK_BOARD.testBit i = true) :
    s.actions = actionsSpec s := by
  rw [Isolation.actions, actionsSpec]
  cases h0 : s.loc s.player with
  | none => rfl
  | some l =>
      refine List.filter_congr ?_
      intro a _
      by_cases hnn : 0 ≤ a + l
      · by_cases hbit : s.board.testBit (a + l).toNat = true
        · have hlt : (a + l).toNat < SIZE := by
            by_contra hge
            have hblank := hsub _ hbit
            rw [Nat.testBit_eq_false_of_lt (lt_of_lt_of_le blank_lt
              (Nat.pow_le_pow_right (by norm_num) (Nat.le_of_not_lt hge)))] at hblank
            cases hblank
          have h2 : a + l < (SIZE : Int) := by omega
          simp [hnn, hbit, h2]
        · simp only [Bool.not_eq_true] at hbit
          simp [hbit]
      · simp [hnn]

/-- Witness for the amended C4 at the start state. -/
theorem actions_inbounds_submask_check : startState.actions = actionsSpec startState :=
  actions_inbounds_submask startState (fun _ h => h)

/-! ### C5 and C6: the truthiness slip in `_has_liberties` -/

/-- A state exhibiting the `any()` truthiness slip: player 0's unique liberty
is cell 0, player 1's unique liberty is cell 75. -/
def truthyCex : Isolation := ⟨2 ^ 75 + 1, 0, (some 27, some 50)⟩

/-- C5 failing input: both players have nonempty liberty lists, yet
`terminal_test` answers `true`, because `any()` treats the liberty at cell
index 0 as falsy. -/
theorem terminal_test_truthiness_bug :
    truthyCex.terminal_test = true ∧
      truthyCex.liberties (truthyCex.loc 0) ≠ [] ∧
      truthyCex.liberties (truthyCex.loc 1) ≠ [] := by decide

/-- C6 failing input: on the same state the active player has a liberty (cell
0), so by the claim it is not the loser, yet `utility` hands it `-inf`. -/
theorem utility_truthiness_bug :
    truthyCex.terminal_test = true ∧
      truthyCex.liberties (truthyCex.loc truthyCex.player) ≠ [] ∧
      truthyCex.utility truthyCex.player = .ninf := by decide

/-! ### The order on search values -/

instance : LinearOrder Val where
  le x y := y.blt x = false
  lt x y := x.blt y = true
  le_refl x := by cases x <;> simp [Val.blt]
  le_trans x y z hab hbc := by
    cases x <;> cases y <;> cases z <;> simp_all [Val.blt] <;> omega
  le_antisymm x y h1 h2 := by
    cases x <;> cases y <;> simp_all [Val.blt] <;> omega
  le_total x y := by cases x <;> cases y <;> simp [Val.blt] <;> omega
  lt_iff_le_not_le x y := by cases x <;> cases y <;> simp [Val.blt] <;> omega
  decidableLE x y := inferInstanceAs (Decidable (_ = false))
  decidableLT x y := inferInstanceAs (Decidable (_ = true))

theorem Val.blt_iff {a b : Val} : a.blt b = true ↔ a < b := Iff.rfl

theorem Val.not_blt_iff {a b : Val} : a.blt b = false ↔ b ≤ a := by
  rw [← Bool.not_eq_true, Val.blt_iff]
  exact not_lt

theorem Val.ninf_le (v : Val) : Val.ninf ≤ v := by
  cases v <;> rfl

theorem Val.le_pinf (v : Val) : v ≤ Val.pinf := by
  cases v <;> rfl

theorem Val.eq_ninf_of_le {v : Val} (h : v ≤ Val.ninf) : v = Val.ninf :=
  le_antisymm h (Val.ninf_le v)

theorem Val.eq_pinf_of_le {v : Val} (h : Val.pinf ≤ v) : v = Val.pinf :=
  le_antisymm (Val.le_pinf v) h

theorem Val.ninf_lt_fin (n : Int) : Val.ninf < Val.fin n := rfl

theorem Val.fin_lt_pinf (n : Int) : Val.fin n < Val.pinf := rfl

/-! ### The alpha-beta search of my_custom_player.py -/

/-- The `for action in state.actions()` loop of `CustomPlayer.get_max`.
`recMin` is the recursive call into `get_min` at the decremented depth; the
`Val` argument is the running `alpha`, `cur`/`mov` are
`current_max_value`/`current_max_move`.  The update, the alpha raise and the
beta cutoff mirror the source line by line, and the comparisons a Python
`None` value would crash on surface as `.typeErr`. -/
def loopMax (recMin : Isolation → Val → Val → Except MoveError (Option Val × Option Int))
    (s : Isolation) (beta : Val) :
    List Int → Val → Option Val → Option Int → Except MoveError (Option Val × Option Int)
  | [], _, cur, mov => .ok (cur, mov)
  | a :: rest, alpha, cur, mov =>
    match s.result a with
    | .error e => .error e
    | .ok next =>
      match recMin next alpha beta with
      | .error e => .error e
      | .ok (minVal, _) =>
        match minVal with
        | none => .error .typeErr
        | some v =>
          let upd : Val × Option Int :=
            match cur with
            | none => (v, some a)
            | some c => if Val.blt c v then (v, some a) else (c, mov)
          let alpha' := if Val.blt alpha upd.1 then upd.1 else alpha
          if Val.blt upd.1 beta = false then .ok (some upd.1, upd.2)
          else loopMax recMin s beta rest alpha' (some upd.1) upd.2

/-- The loop of `CustomPlayer.get_min`: dual of `loopMax`, lowering `beta` and
cutting off at `current <= alpha`. -/
def loopMin (recMax : Isolation → Val → Val → Except MoveError (Option Val × Option Int))
    (s : Isolation) (alpha : Val) :
    List Int → Val → Option Val → Option Int → Except MoveError (Option Val × Option Int)
  | [], _, cur, mov => .ok (cur, mov)
  | a :: rest, beta, cur, mov =>
    match s.result a with
    | .error e => .error e
    | .ok next =>
      match recMax next alpha beta with
      | .error e => .error e
      | .ok (maxVal, _) =>
        match maxVal with
        | none => .error .typeErr
        | some v =>
          let upd : Val × Option Int :=
            match cur with
            | none => (v, some a)
            | some c => if Val.blt v c then (v, some a) else (c, mov)
          let beta' := if Val.blt upd.1 beta then upd.1 else beta
          if Val.blt alpha upd.1 = false then .ok (some upd.1, upd.2)
          else loopMin recMax s alpha rest beta' (some upd.1) upd.2

/-- The terminal branch of `get_max`: exact utility, with a `random.choice`
replacement move on a win (`random.choice` abstracted as `choice`; its
`IndexError` on an empty list surfaces as an error). -/
def maxTerminal (choice : List Int → Option Int) (pid : Nat) (s : Isolation) :
    Except MoveError (Option Val × Option Int) :=
  let util := s.utility pid
  if Val.blt (.fin 0) util then
    match choice s.actions with
    | none => .error .typeErr
    | some m => .ok (some util, some m)
  else .ok (some util, none)

/-- The two search phases at each remaining depth, as one structurally
recursive ladder (first component `get_max`, second `get_min`). -/
def searchLevel (choice : List Int → Option Int) (pid : Nat) :
    Nat → (Isolation → Val → Val → Except MoveError (Option Val × Option Int)) ×
      (Isolation → Val → Val → Except MoveError (Option Val × Option Int))
  | 0 =>
      (fun s _ _ =>
        if s.terminal_test then maxTerminal choice pid s
        else .ok (some (.fin (score_state s pid)), none),
       fun s _ _ =>
        if s.terminal_test then .ok (some (s.utility pid), none)
        else .ok (some (.fin (score_state s pid)), none))
  | d' + 1 =>
      let prev := searchLevel choice pid d'
      (fun s alpha beta =>
        if s.terminal_test then maxTerminal choice pid s
        else loopMax prev.2 s beta s.actions alpha none none,
       fun s alpha beta =>
        if s.terminal_test then .ok (some (s.utility pid), none)
        else loopMin prev.1 s alpha s.actions beta none none)

/-- `CustomPlayer.get_max`: exact utility at a terminal node, the mobility
score when depth is exhausted, otherwise the pruned max loop. -/
def get_max (choice : List Int → Option Int) (pid : Nat) (s : Isolation)
    (alpha beta : Val) (d : Nat) : Except MoveError (Option Val × Option Int) :=
  (searchLevel choice pid d).1 s alpha beta

/-- `CustomPlayer.get_min`: dual of `get_max`, without the random winning-move
branch. -/
def get_min (choice : List Int → Option Int) (pid : Nat) (s : Isolation)
    (alpha beta : Val) (d : Nat) : Except MoveError (Option Val × Option Int) :=
  (searchLevel choice pid d).2 s alpha beta

/-- `get_max` satisfies the source's shape: terminal test first, then the
depth test, then the loop over actions recursing one level shallower. -/
theorem get_max_eq (choice : List Int → Option Int) (pid : Nat) (s : Isolation)
    (alpha beta : Val) (d : Nat) :
    get_max choice pid s alpha beta d =
      if s.terminal_test then maxTerminal choice pid s
      else
        match d with
        | 0 => .ok (some (.fin (score_state s pid)), none)
        | d' + 1 =>
            loopMax (fun t a b => get_min choice pid t a b d') s beta s.actions alpha none none := by
  cases d <;> rfl

theorem get_min_eq (choice : List Int → Option Int) (pid : Nat) (s : Isolation)
    (alpha beta : Val) (d : Nat) :
    get_min choice pid s alpha beta d =
      if s.terminal_test then .ok (some (s.utility pid), none)
      else
        match d with
        | 0 => .ok (some (.fin (score_state s pid)), none)
        | d' + 1 =>
            loopMin (fun t a b => get_max choice pid t a b d') s alpha s.actions beta none none := by
  cases d <;> rfl

/-- `CustomPlayer.minimax`: run `get_max` with the full window and keep the
move. -/
def minimax (choice : List Int → Option Int) (pid : Nat) (s : Isolation) (d : Nat) :
    Except MoveError (Option Int) :=
  match get_max choice pid s .ninf .pinf d with
  | .ok p => .ok p.2
  | .error e => .error e

/-- Modelled from the spec's words for C1 ("exhaustive depth-D minimax without
pruning"): the reference game-tree values of the two phases, with the same
leaf conventions as the search (exact utility at terminal nodes, mobility
score at the depth cutoff); first component max phase, second min phase. -/
def mmLevel (pid : Nat) : Nat → (Isolation → Val) × (Isolation → Val)
  | 0 =>
      (fun s => if s.terminal_test then s.utility pid else .fin (score_state s pid),
       fun s => if s.terminal_test then s.utility pid else .fin (score_state s pid))
  | d' + 1 =>
      let prev := mmLevel pid d'
      (fun s =>
        if s.terminal_test then s.utility pid
        else (s.actions.map (fun a => prev.2 (s.resultD a))).foldl max .ninf,
       fun s =>
        if s.terminal_test then s.utility pid
        else (s.actions.map (fun a => prev.1 (s.resultD a))).foldl min .pinf)

/-- Exhaustive minimax value of a max node. -/
def mmMax (pid : Nat) (s : Isolation) (d : Nat) : Val := (mmLevel pid d).1 s

/-- Exhaustive minimax value of a min node. -/
def mmMin (pid : Nat) (s : Isolation) (d : Nat) : Val := (mmLevel pid d).2 s

theorem mmMax_eq (pid : Nat) (s : Isolation) (d : Nat) :
    mmMax pid s d =
      if s.terminal_test then s.utility pid
      else
        match d with
        | 0 => .fin (score_state s pid)
        | d' + 1 => (s.actions.map (fun a => mmMin pid (s.resultD a) d')).foldl max .ninf := by
  cases d <;> rfl

theorem mmMin_eq (pid : Nat) (s : Isolation) (d : Nat) :
    mmMin pid s d =
      if s.terminal_test then s.utility pid
      else
        match d with
        | 0 => .fin (score_state s pid)
        | d' + 1 => (s.actions.map (fun a => mmMax pid (s.resultD a) d')).foldl min .pinf := by
  cases d <;> rfl

def headChoice : List Int → Option Int := List.head?

example :
    get_max headChoice 0 ⟨2 ^ 75 + 2 ^ 40 + 2 ^ 36 + 2 ^ 25 + 2 ^ 14, 2, (some 50, some 90)⟩
      .ninf .pinf 1 = .ok (some .pinf, some 25) := by decide

example :
    mmMax 0 ⟨2 ^ 75 + 2 ^ 40 + 2 ^ 36 + 2 ^ 25 + 2 ^ 14, 2, (some 50, some 90)⟩ 1 =
      .pinf := by decide

example :
    get_max headChoice 0 (startState.resultD 57) .ninf .pinf 0 =
      .ok (some (.fin (score_state (startState.resultD 57) 0)), none) := by decide

/-! ### Basic facts feeding the search proofs -/

/-- What `random.choice` guarantees: a member, and an answer on any nonempty
list. -/
def GoodChoice (choice : List Int → Option Int) : Prop :=
  ∀ l : List Int, (∀ x, choice l = some x → x ∈ l) ∧ (l ≠ [] → (choice l).isSome = true)

theorem goodChoice_head : GoodChoice headChoice := by
  intro l
  constructor
  · intro x h
    exact List.mem_of_mem_head? h
  · intro h
    cases l with
    | nil => exact absurd rfl h
    | cons a t => rfl

theorem actions_ne_nil_of_hasLib {s : Isolation} (h : s.has_liberties s.player = true) :
    s.actions ≠ [] := by
  rw [Isolation.has_liberties, List.any_eq_true] at h
  obtain ⟨c, hc, hc0⟩ := h
  intro hnil
  cases h0 : s.loc s.player with
  | none =>
      rw [h0] at hc
      simp only [Isolation.actions, h0] at hnil
      rw [hnil] at hc
      cases hc
  | some l =>
      rw [h0] at hc
      rcases mem_liberties_some.1 hc with ⟨⟨a, ha, rfl⟩, hop⟩
      have hmem : a ∈ s.actions := by
        rw [mem_actions_some h0]
        exact ⟨ha, by rwa [Int.add_comm a l]⟩
      rw [hnil] at hmem
      cases hmem

theorem hasLib_player_of_nonterminal {s : Isolation} (h : s.terminal_test = false) :
    s.has_liberties s.player = true := by
  have h2 : (s.has_liberties 0 && s.has_liberties 1) = true := by
    rw [Isolation.terminal_test] at h
    simpa using h
  rw [Bool.and_eq_true] at h2
  rcases Nat.mod_two_eq_zero_or_one s.ply_count with hp | hp
  · rw [Isolation.player, hp]
    exact h2.1
  · rw [Isolation.player, hp]
    exact h2.2

theorem actions_ne_nil_of_nonterminal {s : Isolation} (h : s.terminal_test = false) :
    s.actions ≠ [] :=
  actions_ne_nil_of_hasLib (hasLib_player_of_nonterminal h)

theorem utility_win_hasLib {s : Isolation} {pid : Nat} (ht : s.terminal_test = true)
    (hp : s.player = pid) (hu : Val.blt (.fin 0) (s.utility pid) = true) :
    s.has_liberties s.player = true := by
  rw [Isolation.utility, if_neg (by simp [ht])] at hu
  by_cases hahl : s.has_liberties s.player = true
  · exact hahl
  · exfalso
    have hpia : decide (pid = s.player) = true := by simp [hp]
    rw [hpia] at hu
    rw [Bool.not_eq_true] at hahl
    rw [hahl] at hu
    simp [Val.blt] at hu

theorem resultD_eq {s : Isolation} {a : Int} (hmem : a ∈ s.actions) :
    s.result a = .ok (s.resultD a) := by
  rcases result_applies_action s a hmem with ⟨t, hok, -⟩
  rw [hok, Isolation.resultD, hok]

theorem resultD_player {s : Isolation} {a : Int} (hmem : a ∈ s.actions) :
    (s.resultD a).player = 1 - s.player := by
  rcases result_ok_inversion hmem (resultD_eq hmem) with ⟨-, -, ht⟩
  rw [ht]
  show (s.ply_count + 1) % 2 = 1 - s.ply_count % 2
  omega

theorem resultD_nonterminal_child {s : Isolation} {a : Int} {pid : Nat} (hpid : pid < 2)
    (hmem : a ∈ s.actions) (hp : s.player = 1 - pid) : (s.resultD a).player = pid := by
  rw [resultD_player hmem, hp]
  have := player_lt_two s
  omega

/-! ### Fold lemmas over `Val` -/

theorem foldl_max_le {l : List Val} {b x : Val} :
    l.foldl max b ≤ x ↔ b ≤ x ∧ ∀ y ∈ l, y ≤ x := by
  induction l generalizing b with
  | nil => simp
  | cons a l ih =>
      rw [List.foldl_cons, ih, max_le_iff, List.forall_mem_cons]
      tauto

theorem le_foldl_max_init {l : List Val} {b : Val} : b ≤ l.foldl max b :=
  (foldl_max_le.mp le_rfl).1

theorem le_foldl_max_mem {l : List Val} {b y : Val} (h : y ∈ l) : y ≤ l.foldl max b :=
  (foldl_max_le.mp le_rfl).2 y h

theorem foldl_max_shift {l : List Val} {b : Val} :
    l.foldl max b = max b (l.foldl max Val.ninf) := by
  refine le_antisymm (foldl_max_le.mpr ⟨le_max_left _ _, fun y hy =>
    le_trans (le_foldl_max_mem hy) (le_max_right _ _)⟩) (max_le le_foldl_max_init
    (foldl_max_le.mpr ⟨Val.ninf_le _, fun y hy => le_foldl_max_mem hy⟩))

theorem foldl_max_cons_eq (b ta : Val) (L : List Val) :
    List.foldl max b (ta :: L) = max b (max ta (L.foldl max Val.ninf)) := by
  rw [List.foldl_cons, foldl_max_shift, max_assoc]

theorem le_foldl_min {l : List Val} {b x : Val} :
    x ≤ l.foldl min b ↔ x ≤ b ∧ ∀ y ∈ l, x ≤ y := by
  induction l generalizing b with
  | nil => simp
  | cons a l ih =>
      rw [List.foldl_cons, ih, le_min_iff, List.forall_mem_cons]
      tauto

theorem foldl_min_le_init {l : List Val} {b : Val} : l.foldl min b ≤ b :=
  (le_foldl_min.mp le_rfl).1

theorem foldl_min_le_mem {l : List Val} {b y : Val} (h : y ∈ l) : l.foldl min b ≤ y :=
  (le_foldl_min.mp le_rfl).2 y h

theorem foldl_min_shift {l : List Val} {b : Val} :
    l.foldl min b = min b (l.foldl min Val.pinf) := by
  refine le_antisymm (le_min foldl_min_le_init
    (le_foldl_min.mpr ⟨Val.le_pinf _, fun y hy => foldl_min_le_mem hy⟩))
    (le_foldl_min.mpr ⟨min_le_left _ _, fun y hy =>
      le_trans (min_le_right _ _) (foldl_min_le_mem hy)⟩)

theorem foldl_min_cons_eq (b ta : Val) (L : List Val) :
    List.foldl min b (ta :: L) = min b (min ta (L.foldl min Val.pinf)) := by
  rw [List.foldl_cons, foldl_min_shift, min_assoc]

theorem ite_blt_max (a x : Val) : (if Val.blt a x then x else a) = max a x := by
  rcases le_or_lt x a with h | h
  · rw [if_neg (by rw [Val.not_blt_iff.mpr h]; simp), max_eq_left h]
  · rw [if_pos (Val.blt_iff.mpr h), max_eq_right (le_of_lt h)]

theorem ite_blt_min (x b : Val) : (if Val.blt x b then x else b) = min x b := by
  rcases le_or_lt b x with h | h
  · rw [if_neg (by rw [Val.not_blt_iff.mpr h]; simp), min_eq_right h]
  · rw [if_pos (Val.blt_iff.mpr h), min_eq_left (le_of_lt h)]

/-! ### The fail-soft window guarantee -/

/-- `approx a b v T`: the value `v` computed under window `(a, b)` relates to
the true game-tree value `T` in the fail-soft manner: it is an upper bound on
`T` when it fails low, a lower bound when it fails high, and exact inside the
window. -/
def approx (a b v T : Val) : Prop :=
  (v ≤ a → T ≤ v) ∧ (b ≤ v → v ≤ T) ∧ (a < v → v < b → T = v)

theorem approx_self {a b v : Val} : approx a b v v :=
  ⟨fun _ => le_rfl, fun _ => le_rfl, fun _ _ => rfl⟩

theorem approx_full {v T : Val} (h : approx .ninf .pinf v T) : T = v := by
  rcases h with ⟨h1, h2, h3⟩
  cases v with
  | ninf => exact Val.eq_ninf_of_le (h1 le_rfl)
  | pinf => exact Val.eq_pinf_of_le (h2 le_rfl)
  | fin n => exact h3 (Val.ninf_lt_fin n) (Val.fin_lt_pinf n)

/-- A child value that strictly improved the accumulator keeps its guarantee
for the original alpha. -/
theorem approx_update {alpha0 beta c va ta : Val}
    (ha : approx (max alpha0 c) beta va ta) (hc : c < va) :
    approx alpha0 beta va ta :=
  ⟨fun h => ha.1 (le_trans h (le_max_left _ _)), ha.2.1,
   fun h1 h2 => ha.2.2 (max_lt h1 hc) h2⟩

/-- Dual of `approx_update` for the min loop. -/
theorem approx_update_min {alpha beta0 c va ta : Val}
    (ha : approx alpha (min beta0 c) va ta) (hc : va < c) :
    approx alpha beta0 va ta :=
  ⟨ha.1, fun h => ha.2.1 (le_trans (min_le_left _ _) h),
   fun h1 h2 => ha.2.2 h1 (lt_min h2 hc)⟩

/-- Extending the max-loop suffix guarantee across one more explored child.
`X` is the accumulator before the child, `va`/`ta` the child's returned and
true values, `R` the true max of the remaining suffix. -/
theorem approx_fold_step {alpha0 alpha beta v va ta X R : Val}
    (halpha : alpha = max alpha0 X)
    (hab : alpha < beta)
    (ha : approx alpha beta va ta)
    (hS : approx alpha0 beta v (max (max X va) R))
    (hYv : max X va ≤ v) :
    approx alpha0 beta v (max X (max ta R)) := by
  have hvav : va ≤ v := le_trans (le_max_right X va) hYv
  have hXv : X ≤ v := le_trans (le_max_left X va) hYv
  have ha0a : alpha0 ≤ alpha := halpha ▸ le_max_left _ _
  have hXa : X ≤ alpha := halpha ▸ le_max_right _ _
  refine ⟨?_, ?_, ?_⟩
  · intro hv
    have h1 := hS.1 hv
    rw [max_le_iff, max_le_iff] at h1
    have hta : ta ≤ v := by
      rcases le_or_lt va alpha with hcase | hcase
      · exact le_trans (ha.1 hcase) hvav
      · exact absurd (lt_of_le_of_lt (le_trans hvav (le_trans hv ha0a)) hcase)
          (lt_irrefl _)
    exact max_le hXv (max_le hta h1.2)
  · intro hv
    have h2 := hS.2.1 hv
    rcases le_max_iff.mp h2 with h | h
    · rcases le_max_iff.mp h with h | h
      · have : beta < beta := lt_of_le_of_lt (le_trans hv (le_trans h hXa)) hab
        exact absurd this (lt_irrefl _)
      · have hva_eq : va = v := le_antisymm hvav h
        have h3 : va ≤ ta := ha.2.1 (by rw [hva_eq]; exact hv)
        rw [← hva_eq]
        exact le_trans h3 (le_trans (le_max_left ta R) (le_max_right X (max ta R)))
    · exact le_trans h (le_trans (le_max_right ta R) (le_max_right X (max ta R)))
  · intro h1 h2
    have hE := hS.2.2 h1 h2
    have hRv : R ≤ v := by
      rw [← hE]
      exact le_max_right _ _
    have hta : ta ≤ v := by
      rcases le_or_lt va alpha with hcase | hcase
      · exact le_trans (ha.1 hcase) hvav
      · rw [ha.2.2 hcase (lt_of_le_of_lt hvav h2)]
        exact hvav
    refine le_antisymm (max_le hXv (max_le hta hRv)) ?_
    rcases max_choice (max X va) R with hc | hc
    · rw [hc] at hE
      rcases max_choice X va with hc2 | hc2
      · have hXeq : X = v := by rw [← hc2, hE]
        rw [← hXeq]
        exact le_max_left X (max ta R)
      · have hvaeq : va = v := by rw [← hc2, hE]
        rcases le_or_lt va alpha with hcase | hcase
        · rw [halpha] at hcase
          rcases max_choice alpha0 X with hc3 | hc3
          · rw [hc3] at hcase
            have hv0 : v ≤ alpha0 := by
              rw [← hvaeq]
              exact hcase
            exact absurd (lt_of_lt_of_le h1 hv0) (lt_irrefl _)
          · rw [hc3] at hcase
            have hXeq : X = v := le_antisymm hXv (by rw [← hvaeq]; exact hcase)
            rw [← hXeq]
            exact le_max_left X (max ta R)
        · rw [← hvaeq, ← ha.2.2 hcase (lt_of_le_of_lt hvav h2)]
          exact le_trans (le_max_left ta R) (le_max_right X (max ta R))
    · rw [hc] at hE
      rw [← hE]
      exact le_trans (le_max_right ta R) (le_max_right X (max ta R))

/-- The max-loop guarantee when the beta cutoff fires on this child. -/
theorem approx_fold_cutoff {alpha0 alpha beta va ta X R : Val}
    (halpha : alpha = max alpha0 X)
    (hab : alpha < beta)
    (ha : approx alpha beta va ta)
    (hcut : beta ≤ va) :
    approx alpha0 beta va (max X (max ta R)) := by
  have ha0a : alpha0 ≤ alpha := halpha ▸ le_max_left _ _
  refine ⟨?_, ?_, ?_⟩
  · intro hv
    exact absurd (lt_of_le_of_lt (le_trans hcut (le_trans hv ha0a)) hab) (lt_irrefl _)
  · intro _
    exact le_trans (ha.2.1 hcut) (le_trans (le_max_left ta R) (le_max_right X (max ta R)))
  · intro _ hlt
    exact absurd (lt_of_le_of_lt hcut hlt) (lt_irrefl _)

/-- Dual of `approx_fold_step` for the min loop: `X` is the accumulator before
the child, `R` the true min of the remaining suffix. -/
theorem approx_fold_step_min {beta0 beta alpha v va ta X R : Val}
    (hbeta : beta = min beta0 X)
    (hab : alpha < beta)
    (ha : approx alpha beta va ta)
    (hS : approx alpha beta0 v (min (min X va) R))
    (hYv : v ≤ min X va) :
    approx alpha beta0 v (min X (min ta R)) := by
  have hvav : v ≤ va := le_trans hYv (min_le_right X va)
  have hXv : v ≤ X := le_trans hYv (min_le_left X va)
  have hb0b : beta ≤ beta0 := hbeta ▸ min_le_left _ _
  have hXb : beta ≤ X := hbeta ▸ min_le_right _ _
  refine ⟨?_, ?_, ?_⟩
  · intro hv
    have h1 := hS.1 hv
    rcases min_le_iff.mp h1 with h | h
    · rcases min_le_iff.mp h with h | h
      · have : beta < beta := lt_of_le_of_lt (le_trans hXb (le_trans h hv)) hab
        exact absurd this (lt_irrefl _)
      · have hva_eq : va = v := le_antisymm h hvav
        have h3 : ta ≤ va := ha.1 (by rw [hva_eq]; exact hv)
        rw [← hva_eq]
        exact min_le_of_right_le (le_trans (min_le_left ta R) h3)
    · exact min_le_of_right_le (le_trans (min_le_right ta R) h)
  · intro hv
    have h2 := hS.2.1 hv
    rw [le_min_iff, le_min_iff] at h2
    have hta : v ≤ ta := by
      rcases le_or_lt beta va with hcase | hcase
      · exact le_trans hvav (ha.2.1 hcase)
      · rw [ha.2.2 (lt_of_lt_of_le (lt_of_lt_of_le hab hb0b) (le_trans hv hvav)) hcase]
        exact hvav
    exact le_min hXv (le_min hta h2.2)
  · intro h1 h2
    have hE := hS.2.2 h1 h2
    have hRv : v ≤ R := by
      rw [← hE]
      exact min_le_right _ _
    have hta : v ≤ ta := by
      rcases le_or_lt beta va with hcase | hcase
      · exact le_trans hvav (ha.2.1 hcase)
      · rw [ha.2.2 (lt_of_lt_of_le h1 hvav) hcase]
        exact hvav
    refine le_antisymm ?_ (le_min hXv (le_min hta hRv))
    rcases min_choice (min X va) R with hc | hc
    · rw [hc] at hE
      rcases min_choice X va with hc2 | hc2
      · have hXeq : X = v := by rw [← hc2, hE]
        rw [← hXeq]
        exact min_le_left X (min ta R)
      · have hvaeq : va = v := by rw [← hc2, hE]
        rcases le_or_lt beta va with hcase | hcase
        · rw [hbeta] at hcase
          rcases min_choice beta0 X with hc3 | hc3
          · rw [hc3] at hcase
            have hv0 : beta0 ≤ v := by
              rw [← hvaeq]
              exact hcase
            exact absurd (lt_of_le_of_lt hv0 h2) (lt_irrefl _)
          · rw [hc3] at hcase
            have hXeq : X = v := le_antisymm (by rw [← hvaeq]; exact hcase) hXv
            rw [← hXeq]
            exact min_le_left X (min ta R)
        · rw [← hvaeq, ← ha.2.2 (lt_of_lt_of_le h1 hvav) hcase]
          exact min_le_of_right_le (min_le_left ta R)
    · rw [hc] at hE
      rw [← hE]
      exact min_le_of_right_le (min_le_right ta R)

/-- The min-loop guarantee when the alpha cutoff fires on this child. -/
theorem approx_fold_cutoff_min {beta0 beta alpha va ta X R : Val}
    (hbeta : beta = min beta0 X)
    (hab : alpha < beta)
    (ha : approx alpha beta va ta)
    (hcut : va ≤ alpha) :
    approx alpha beta0 va (min X (min ta R)) := by
  have hb0b : beta ≤ beta0 := hbeta ▸ min_le_left _ _
  refine ⟨?_, ?_, ?_⟩
  · intro _
    exact min_le_of_right_le (min_le_of_left_le (ha.1 hcut))
  · intro hv
    exact absurd (lt_of_le_of_lt (le_trans hb0b (le_trans hv hcut)) hab) (lt_irrefl _)
  · intro hlt _
    exact absurd (lt_of_le_of_lt hcut hlt) (lt_irrefl _)

theorem Val.fin_lt_fin {a b : Int} : (Val.fin a) < (Val.fin b) ↔ a < b := by
  rw [← Val.blt_iff]
  simp [Val.blt]

theorem Val.fin_le_fin {a b : Int} : (Val.fin a) ≤ (Val.fin b) ↔ a ≤ b := by
  constructor
  · intro h
    have hb : Val.blt (Val.fin b) (Val.fin a) = false := h
    simpa [Val.blt, Int.not_lt] using hb
  · intro h
    show Val.blt (Val.fin b) (Val.fin a) = false
    simpa [Val.blt, Int.not_lt] using h

theorem Val.lt_of_not_blt_false {a b : Val} (h : ¬(Val.blt a b = false)) : a < b := by
  rcases Bool.eq_false_or_eq_true (Val.blt a b) with hb | hb
  · exact Val.blt_iff.mp hb
  · exact absurd hb h

/-! ### Node-level specifications of the two search phases -/

/-- What `get_max` guarantees at depth `d`: it succeeds, its value is a
fail-soft approximation of the exhaustive minimax value, and away from
terminal nodes at positive depth its move is a legal action whose subtree
value carries the same guarantee. -/
def MaxSpec (choice : List Int → Option Int) (pid : Nat) (d : Nat) : Prop :=
  ∀ (s : Isolation) (alpha beta : Val), pid < 2 → alpha < beta → s.player = pid →
    ∃ v m, get_max choice pid s alpha beta d = .ok (some v, m) ∧
      approx alpha beta v (mmMax pid s d) ∧
      (s.terminal_test = false → ∀ e : Nat, d = e + 1 →
        ∃ mv, m = some mv ∧ mv ∈ s.actions ∧ approx alpha beta v (mmMin pid (s.resultD mv) e))

/-- What `get_min` guarantees at depth `d`. -/
def MinSpec (choice : List Int → Option Int) (pid : Nat) (d : Nat) : Prop :=
  ∀ (s : Isolation) (alpha beta : Val), pid < 2 → alpha < beta → s.player = 1 - pid →
    ∃ v m, get_min choice pid s alpha beta d = .ok (some v, m) ∧
      approx alpha beta v (mmMin pid s d)

/-- Invariant-carrying specification of the `get_max` action loop.  The
accumulator `cur`/`mov` carries the best explored value and move, `alpha`
equals the original `alpha0` raised to the accumulator, and the result is a
fail-soft approximation of the max of the accumulator with the true values of
the remaining actions. -/
theorem loopMax_spec {choice : List Int → Option Int} {pid d' : Nat}
    (hmin : MinSpec choice pid d') (s : Isolation) (beta : Val)
    (hpid : pid < 2) (hp : s.player = pid) :
    ∀ (acts : List Int) (alpha alpha0 : Val) (cur : Option Val) (mov : Option Int),
      (∀ a ∈ acts, a ∈ s.actions) →
      alpha < beta →
      (cur = none → alpha = alpha0 ∧ acts ≠ []) →
      (∀ c, cur = some c →
        c < beta ∧ alpha = max alpha0 c ∧
        ∃ j, mov = some j ∧ j ∈ s.actions ∧ approx alpha0 beta c (mmMin pid (s.resultD j) d')) →
      ∃ v mv,
        loopMax (fun t a b => get_min choice pid t a b d') s beta acts alpha cur mov =
          .ok (some v, some mv) ∧
        mv ∈ s.actions ∧
        (∀ c, cur = some c → c ≤ v) ∧
        approx alpha0 beta v (mmMin pid (s.resultD mv) d') ∧
        approx alpha0 beta v
          ((acts.map (fun a => mmMin pid (s.resultD a) d')).foldl max (cur.elim Val.ninf id)) := by
  intro acts
  induction acts with
  | nil =>
      intro alpha alpha0 cur mov hsub hab hnone hsome
      cases cur with
      | none =>
          obtain ⟨-, hne⟩ := hnone rfl
          exact absurd rfl hne
      | some c =>
          obtain ⟨hcb, hamax, j, rfl, hjmem, hapj⟩ := hsome c rfl
          refine ⟨c, j, rfl, hjmem, ?_, hapj, ?_⟩
          · intro c2 h
            injection h with h2
            subst h2
            exact le_rfl
          · exact approx_self
  | cons a rest ih =>
      intro alpha alpha0 cur mov hsub hab hnone hsome
      have hamem : a ∈ s.actions := hsub a (List.mem_cons_self a rest)
      have hsubr : ∀ x ∈ rest, x ∈ s.actions := fun x hx => hsub x (List.mem_cons_of_mem a hx)
      have hres : s.result a = .ok (s.resultD a) := resultD_eq hamem
      have hply : (s.resultD a).player = 1 - pid := by rw [resultD_player hamem, hp]
      obtain ⟨va, ma, hva, hap⟩ := hmin (s.resultD a) alpha beta hpid hab hply
      cases cur with
      | none =>
          obtain ⟨ha0, -⟩ := hnone rfl
          subst ha0
          by_cases hcut : Val.blt va beta = false
          · have hbva : beta ≤ va := Val.not_blt_iff.mp hcut
            refine ⟨va, a, ?_, hamem, ?_, hap, ?_⟩
            · simp only [loopMax, hres, hva]
              rw [if_pos hcut]
            · intro c2 h
              cases h
            · rw [List.map_cons, foldl_max_cons_eq]
              exact approx_fold_cutoff (max_eq_left (Val.ninf_le alpha)).symm hab hap hbva
          · have hvab : va < beta := Val.lt_of_not_blt_false hcut
            obtain ⟨v, mv, heq, hmvmem, hcle, hapmv, hapS⟩ :=
              ih (max alpha va) alpha (some va) (some a) hsubr (max_lt hab hvab)
                (by intro h; cases h)
                (by
                  intro c2 h
                  injection h with h2
                  subst h2
                  exact ⟨hvab, rfl, a, rfl, hamem, hap⟩)
            refine ⟨v, mv, ?_, hmvmem, ?_, hapmv, ?_⟩
            · simp only [loopMax, hres, hva]
              rw [if_neg hcut, ite_blt_max]
              exact heq
            · intro c2 h
              cases h
            · rw [List.map_cons, foldl_max_cons_eq]
              rw [foldl_max_shift] at hapS
              simp only [Option.elim, id_eq] at hapS ⊢
              refine approx_fold_step (max_eq_left (Val.ninf_le alpha)).symm hab hap ?_ ?_
              · rwa [max_eq_right (Val.ninf_le va)]
              · rw [max_eq_right (Val.ninf_le va)]
                exact hcle va rfl
      | some c =>
          obtain ⟨hcb, hamax, j, rfl, hjmem, hapj⟩ := hsome c rfl
          by_cases hupd : Val.blt c va = true
          · have hcva : c < va := Val.blt_iff.mp hupd
            have hapA : approx alpha0 beta va (mmMin pid (s.resultD a) d') :=
              approx_update (by rwa [← hamax]) hcva
            by_cases hcut : Val.blt va beta = false
            · have hbva : beta ≤ va := Val.not_blt_iff.mp hcut
              refine ⟨va, a, ?_, hamem, ?_, hapA, ?_⟩
              · simp only [loopMax, hres, hva]
                rw [if_pos hupd, if_pos hcut]
              · intro c2 h
                injection h with h2
                subst h2
                exact le_of_lt hcva
              · rw [List.map_cons, foldl_max_cons_eq]
                exact approx_fold_cutoff hamax hab hap hbva
            · have hvab : va < beta := Val.lt_of_not_blt_false hcut
              have halpha2 : max alpha va = max alpha0 va := by
                rw [hamax, max_assoc, max_eq_right (le_of_lt hcva)]
              obtain ⟨v, mv, heq, hmvmem, hcle, hapmv, hapS⟩ :=
                ih (max alpha0 va) alpha0 (some va) (some a) hsubr
                  (by rw [← halpha2]; exact max_lt hab hvab)
                  (by intro h; cases h)
                  (by
                    intro c2 h
                    injection h with h2
                    subst h2
                    exact ⟨hvab, rfl, a, rfl, hamem, hapA⟩)
              refine ⟨v, mv, ?_, hmvmem, ?_, hapmv, ?_⟩
              · simp only [loopMax, hres, hva]
                rw [if_pos hupd, if_neg hcut, ite_blt_max, halpha2]
                exact heq
              · intro c2 h
                injection h with h2
                subst h2
                exact le_of_lt (lt_of_lt_of_le hcva (hcle va rfl))
              · rw [List.map_cons, foldl_max_cons_eq]
                rw [foldl_max_shift] at hapS
                simp only [Option.elim, id_eq] at hapS ⊢
                refine approx_fold_step hamax hab hap ?_ ?_
                · rwa [max_eq_right (le_of_lt hcva)]
                · rw [max_eq_right (le_of_lt hcva)]
                  exact hcle va rfl
          · have hvac : va ≤ c := by
              rcases Bool.eq_false_or_eq_true (Val.blt c va) with hb | hb
              · exact absurd hb hupd
              · exact Val.not_blt_iff.mp hb
            obtain ⟨v, mv, heq, hmvmem, hcle, hapmv, hapS⟩ :=
              ih alpha alpha0 (some c) (some j) hsubr hab
                (by intro h; cases h)
                (by
                  intro c2 h
                  injection h with h2
                  subst h2
                  exact ⟨hcb, hamax, j, rfl, hjmem, hapj⟩)
            refine ⟨v, mv, ?_, hmvmem, ?_, hapmv, ?_⟩
            · simp only [loopMax, hres, hva]
              rw [if_neg hupd]
              have hac : (if Val.blt alpha c then c else alpha) = alpha := by
                rw [ite_blt_max, max_eq_left (by rw [hamax]; exact le_max_right alpha0 c)]
              have hcbeta : ¬(Val.blt c beta = false) := by
                rw [Val.blt_iff.mpr hcb]
                simp
              rw [hac, if_neg hcbeta]
              exact heq
            · intro c2 h
              injection h with h2
              subst h2
              exact hcle c rfl
            · rw [List.map_cons, foldl_max_cons_eq]
              rw [foldl_max_shift] at hapS
              simp only [Option.elim, id_eq] at hapS ⊢
              refine approx_fold_step hamax hab hap ?_ ?_
              · rwa [max_eq_left hvac]
              · rw [max_eq_left hvac]
                exact hcle c rfl

/-- Invariant-carrying specification of the `get_min` action loop, dual of
`loopMax_spec`: the accumulator carries the least explored value, `beta`
equals the original `beta0` lowered to the accumulator. -/
theorem loopMin_spec {choice : List Int → Option Int} {pid d' : Nat}
    (hmax : MaxSpec choice pid d') (s : Isolation) (alpha : Val)
    (hpid : pid < 2) (hp : s.player = 1 - pid) :
    ∀ (acts : List Int) (beta beta0 : Val) (cur : Option Val) (mov : Option Int),
      (∀ a ∈ acts, a ∈ s.actions) →
      alpha < beta →
      (cur = none → beta = beta0 ∧ acts ≠ []) →
      (∀ c, cur = some c →
        alpha < c ∧ beta = min beta0 c ∧
        ∃ j, mov = some j ∧ j ∈ s.actions ∧ approx alpha beta0 c (mmMax pid (s.resultD j) d')) →
      ∃ v mv,
        loopMin (fun t a b => get_max choice pid t a b d') s alpha acts beta cur mov =
          .ok (some v, some mv) ∧
        mv ∈ s.actions ∧
        (∀ c, cur = some c → v ≤ c) ∧
        approx alpha beta0 v (mmMax pid (s.resultD mv) d') ∧
        approx alpha beta0 v
          ((acts.map (fun a => mmMax pid (s.resultD a) d')).foldl min (cur.elim Val.pinf id)) := by
  intro acts
  induction acts with
  | nil =>
      intro beta beta0 cur mov hsub hab hnone hsome
      cases cur with
      | none =>
          obtain ⟨-, hne⟩ := hnone rfl
          exact absurd rfl hne
      | some c =>
          obtain ⟨hac, hbmin, j, rfl, hjmem, hapj⟩ := hsome c rfl
          refine ⟨c, j, rfl, hjmem, ?_, hapj, ?_⟩
          · intro c2 h
            injection h with h2
            subst h2
            exact le_rfl
          · exact approx_self
  | cons a rest ih =>
      intro beta beta0 cur mov hsub hab hnone hsome
      have hamem : a ∈ s.actions := hsub a (List.mem_cons_self a rest)
      have hsubr : ∀ x ∈ rest, x ∈ s.actions := fun x hx => hsub x (List.mem_cons_of_mem a hx)
      have hres : s.result a = .ok (s.resultD a) := resultD_eq hamem
      have hply : (s.resultD a).player = pid := resultD_nonterminal_child hpid hamem hp
      obtain ⟨va, ma, hva, hap, -⟩ := hmax (s.resultD a) alpha beta hpid hab hply
      cases cur with
      | none =>
          obtain ⟨hb0, -⟩ := hnone rfl
          subst hb0
          by_cases hcut : Val.blt alpha va = false
          · have hvaa : va ≤ alpha := Val.not_blt_iff.mp hcut
            refine ⟨va, a, ?_, hamem, ?_, hap, ?_⟩
            · simp only [loopMin, hres, hva]
              rw [if_pos hcut]
            · intro c2 h
              cases h
            · rw [List.map_cons, foldl_min_cons_eq]
              exact approx_fold_cutoff_min (min_eq_left (Val.le_pinf beta)).symm hab hap hvaa
          · have hava : alpha < va := Val.lt_of_not_blt_false hcut
            obtain ⟨v, mv, heq, hmvmem, hcle, hapmv, hapS⟩ :=
              ih (min va beta) beta (some va) (some a) hsubr (lt_min hava hab)
                (by intro h; cases h)
                (by
                  intro c2 h
                  injection h with h2
                  subst h2
                  exact ⟨hava, min_comm va beta, a, rfl, hamem, hap⟩)
            refine ⟨v, mv, ?_, hmvmem, ?_, hapmv, ?_⟩
            · simp only [loopMin, hres, hva]
              rw [if_neg hcut, ite_blt_min]
              exact heq
            · intro c2 h
              cases h
            · rw [List.map_cons, foldl_min_cons_eq]
              rw [foldl_min_shift] at hapS
              simp only [Option.elim, id_eq] at hapS ⊢
              refine approx_fold_step_min (min_eq_left (Val.le_pinf beta)).symm hab hap ?_ ?_
              · rwa [min_eq_right (Val.le_pinf va)]
              · rw [min_eq_right (Val.le_pinf va)]
                exact hcle va rfl
      | some c =>
          obtain ⟨hac, hbmin, j, rfl, hjmem, hapj⟩ := hsome c rfl
          by_cases hupd : Val.blt va c = true
          · have hvac : va < c := Val.blt_iff.mp hupd
            have hapA : approx alpha beta0 va (mmMax pid (s.resultD a) d') :=
              approx_update_min (by rwa [← hbmin]) hvac
            by_cases hcut : Val.blt alpha va = false
            · have hvaa : va ≤ alpha := Val.not_blt_iff.mp hcut
              refine ⟨va, a, ?_, hamem, ?_, hapA, ?_⟩
              · simp only [loopMin, hres, hva]
                rw [if_pos hupd, if_pos hcut]
              · intro c2 h
                injection h with h2
                subst h2
                exact le_of_lt hvac
              · rw [List.map_cons, foldl_min_cons_eq]
                exact approx_fold_cutoff_min hbmin hab hap hvaa
            · have hava : alpha < va := Val.lt_of_not_blt_false hcut
              have hbeta2 : min va beta = min beta0 va := by
                rw [hbmin, min_comm va, min_assoc, min_eq_right (le_of_lt hvac)]
              obtain ⟨v, mv, heq, hmvmem, hcle, hapmv, hapS⟩ :=
                ih (min beta0 va) beta0 (some va) (some a) hsubr
                  (by rw [← hbeta2]; exact lt_min hava hab)
                  (by intro h; cases h)
                  (by
                    intro c2 h
                    injection h with h2
                    subst h2
                    exact ⟨hava, rfl, a, rfl, hamem, hapA⟩)
              refine ⟨v, mv, ?_, hmvmem, ?_, hapmv, ?_⟩
              · simp only [loopMin, hres, hva]
                rw [if_pos hupd, if_neg hcut, ite_blt_min, hbeta2]
                exact heq
              · intro c2 h
                injection h with h2
                subst h2
                exact le_of_lt (lt_of_le_of_lt (hcle va rfl) hvac)
              · rw [List.map_cons, foldl_min_cons_eq]
                rw [foldl_min_shift] at hapS
                simp only [Option.elim, id_eq] at hapS ⊢
                refine approx_fold_step_min hbmin hab hap ?_ ?_
                · rwa [min_eq_right (le_of_lt hvac)]
                · rw [min_eq_right (le_of_lt hvac)]
                  exact hcle va rfl
          · have hcva : c ≤ va := by
              rcases Bool.eq_false_or_eq_true (Val.blt va c) with hb | hb
              · exact absurd hb hupd
              · exact Val.not_blt_iff.mp hb
            obtain ⟨v, mv, heq, hmvmem, hcle, hapmv, hapS⟩ :=
              ih beta beta0 (some c) (some j) hsubr hab
                (by intro h; cases h)
                (by
                  intro c2 h
                  injection h with h2
                  subst h2
                  exact ⟨hac, hbmin, j, rfl, hjmem, hapj⟩)
            refine ⟨v, mv, ?_, hmvmem, ?_, hapmv, ?_⟩
            · simp only [loopMin, hres, hva]
              rw [if_neg hupd]
              have hbc : (if Val.blt c beta then c else beta) = beta := by
                rw [ite_blt_min, min_eq_right (by rw [hbmin]; exact min_le_right beta0 c)]
              have hcalpha : ¬(Val.blt alpha c = false) := by
                rw [Val.blt_iff.mpr hac]
                simp
              rw [hbc, if_neg hcalpha]
              exact heq
            · intro c2 h
              injection h with h2
              subst h2
              exact hcle c rfl
            · rw [List.map_cons, foldl_min_cons_eq]
              rw [foldl_min_shift] at hapS
              simp only [Option.elim, id_eq] at hapS ⊢
              refine approx_fold_step_min hbmin hab hap ?_ ?_
              · rwa [min_eq_left hcva]
              · rw [min_eq_left hcva]
                exact hcle c rfl

/-- Terminal nodes of `get_max` succeed and return the exact utility. -/
theorem maxTerminal_spec {choice : List Int → Option Int} {pid : Nat} {s : Isolation}
    (hch : GoodChoice choice) (hterm : s.terminal_test = true) (hp : s.player = pid) :
    ∃ v m, maxTerminal choice pid s = .ok (some v, m) ∧ v = s.utility pid := by
  by_cases hu : Val.blt (.fin 0) (s.utility pid) = true
  · have hne := actions_ne_nil_of_hasLib (utility_win_hasLib hterm hp hu)
    obtain ⟨m, hm⟩ := Option.isSome_iff_exists.mp ((hch s.actions).2 hne)
    refine ⟨s.utility pid, some m, ?_, rfl⟩
    simp [maxTerminal, hu, hm]
  · refine ⟨s.utility pid, none, ?_, rfl⟩
    simp [maxTerminal, hu]

theorem max_spec_zero {choice : List Int → Option Int} {pid : Nat} (hch : GoodChoice choice) :
    MaxSpec choice pid 0 := by
  intro s alpha beta hpid hab hp
  by_cases hterm : s.terminal_test = true
  · obtain ⟨v, m, heq, hv⟩ := maxTerminal_spec hch hterm hp
    refine ⟨v, m, ?_, ?_, ?_⟩
    · rw [get_max_eq, if_pos hterm]
      exact heq
    · rw [mmMax_eq, if_pos hterm, ← hv]
      exact approx_self
    · intro hfalse
      rw [hfalse] at hterm
      cases hterm
  · have hterm2 : s.terminal_test = false := by simpa using hterm
    refine ⟨.fin (score_state s pid), none, ?_, ?_, ?_⟩
    · rw [get_max_eq, if_neg (by simp [hterm2])]
    · rw [mmMax_eq, if_neg (by simp [hterm2])]
      exact approx_self
    · intro _ e he
      exact absurd he (by omega)

theorem min_spec_zero {choice : List Int → Option Int} {pid : Nat} : MinSpec choice pid 0 := by
  intro s alpha beta hpid hab hp
  by_cases hterm : s.terminal_test = true
  · refine ⟨s.utility pid, none, ?_, ?_⟩
    · rw [get_min_eq, if_pos hterm]
    · rw [mmMin_eq, if_pos hterm]
      exact approx_self
  · have hterm2 : s.terminal_test = false := by simpa using hterm
    refine ⟨.fin (score_state s pid), none, ?_, ?_⟩
    · rw [get_min_eq, if_neg (by simp [hterm2])]
    · rw [mmMin_eq, if_neg (by simp [hterm2])]
      exact approx_self

theorem max_spec_succ {choice : List Int → Option Int} {pid d' : Nat}
    (hch : GoodChoice choice) (hmin : MinSpec choice pid d') :
    MaxSpec choice pid (d' + 1) := by
  intro s alpha beta hpid hab hp
  by_cases hterm : s.terminal_test = true
  · obtain ⟨v, m, heq, hv⟩ := maxTerminal_spec hch hterm hp
    refine ⟨v, m, ?_, ?_, ?_⟩
    · rw [get_max_eq, if_pos hterm]
      exact heq
    · rw [mmMax_eq, if_pos hterm, ← hv]
      exact approx_self
    · intro hfalse
      rw [hfalse] at hterm
      cases hterm
  · have hterm2 : s.terminal_test = false := by simpa using hterm
    obtain ⟨v, mv, heq, hmvmem, -, hapmv, hapS⟩ :=
      loopMax_spec hmin s beta hpid hp s.actions alpha alpha none none
        (fun a h => h) hab (fun _ => ⟨rfl, actions_ne_nil_of_nonterminal hterm2⟩)
        (by intro c h; cases h)
    refine ⟨v, some mv, ?_, ?_, ?_⟩
    · rw [get_max_eq, if_neg (by simp [hterm2])]
      exact heq
    · rw [mmMax_eq, if_neg (by simp [hterm2])]
      exact hapS
    · intro _ e he
      injection he with he2
      subst he2
      exact ⟨mv, rfl, hmvmem, hapmv⟩

theorem min_spec_succ {choice : List Int → Option Int} {pid d' : Nat}
    (hmax : MaxSpec choice pid d') : MinSpec choice pid (d' + 1) := by
  intro s alpha beta hpid hab hp
  by_cases hterm : s.terminal_test = true
  · refine ⟨s.utility pid, none, ?_, ?_⟩
    · rw [get_min_eq, if_pos hterm]
    · rw [mmMin_eq, if_pos hterm]
      exact approx_self
  · have hterm2 : s.terminal_test = false := by simpa using hterm
    obtain ⟨v, mv, heq, hmvmem, -, hapmv, hapS⟩ :=
      loopMin_spec hmax s alpha hpid hp s.actions beta beta none none
        (fun a h => h) hab (fun _ => ⟨rfl, actions_ne_nil_of_nonterminal hterm2⟩)
        (by intro c h; cases h)
    refine ⟨v, some mv, ?_, ?_⟩
    · rw [get_min_eq, if_neg (by simp [hterm2])]
      exact heq
    · rw [mmMin_eq, if_neg (by simp [hterm2])]
      exact hapS

/-- The full fail-soft guarantee of the search, by induction on depth. -/
theorem searchSpec (choice : List Int → Option Int) (hch : GoodChoice choice) (pid : Nat) :
    ∀ d : Nat, MaxSpec choice pid d ∧ MinSpec choice pid d := by
  intro d
  induction d with
  | zero => exact ⟨max_spec_zero hch, min_spec_zero⟩
  | succ d ih => exact ⟨max_spec_succ hch ih.2, min_spec_succ ih.1⟩

/-- Claim C1: from any reachable non-terminal state, alpha-beta search with
the full window returns the exhaustive depth-D minimax value, and the move it
selects is a legal action whose depth-(D-1) subtree value equals that minimax
value. -/
theorem alphabeta_agrees_minimax (choice : List Int → Option Int) (pid : Nat)
    (s : Isolation) (D : Nat) (hch : GoodChoice choice) (hreach : Reachable s)
    (hterm : s.terminal_test = false) (hp : s.player = pid) :
    ∃ v m, get_max choice pid s .ninf .pinf D = .ok (some v, m) ∧
      v = mmMax pid s D ∧
      ∀ e : Nat, D = e + 1 → ∃ mv, m = some mv ∧ mv ∈ s.actions ∧
        mmMin pid (s.resultD mv) e = mmMax pid s D := by
  have hpid : pid < 2 := hp ▸ player_lt_two s
  have hnp : (Val.ninf : Val) < Val.pinf := Val.blt_iff.mp rfl
  obtain ⟨v, m, heq, hap, hmove⟩ := (searchSpec choice hch pid D).1 s .ninf .pinf hpid hnp hp
  have hv : mmMax pid s D = v := approx_full hap
  refine ⟨v, m, heq, hv.symm, ?_⟩
  intro e he
  obtain ⟨mv, rfl, hmem, hapmv⟩ := hmove hterm e he
  exact ⟨mv, rfl, hmem, by rw [approx_full hapmv, hv]⟩

/-- The reachable state after opening moves to 57 (player 0) and 0 (player 1). -/
def twoPlyState : Isolation := (startState.resultD 57).resultD 0

theorem twoPlyState_reachable : Reachable twoPlyState :=
  @Reachable.step (startState.resultD 57) 0 twoPlyState
    (@Reachable.step startState 57 (startState.resultD 57) Reachable.start
      (by decide) (by decide))
    (by decide) (by decide)

/-- Witness for C1 at a concrete reachable midgame state, at depth 1. -/
theorem alphabeta_agrees_minimax_check :
    ∃ v m, get_max headChoice 0 twoPlyState .ninf .pinf 1 = .ok (some v, m) ∧
      v = mmMax 0 twoPlyState 1 ∧
      ∀ e : Nat, 1 = e + 1 → ∃ mv, m = some mv ∧ mv ∈ twoPlyState.actions ∧
        mmMin 0 (twoPlyState.resultD mv) e = mmMax 0 twoPlyState 1 :=
  alphabeta_agrees_minimax headChoice 0 twoPlyState 1 goodChoice_head twoPlyState_reachable
    (by decide) (by decide)

/-- Claim C8: on a non-terminal input state, the unconditional immediate
report (`random.choice(state.actions())`) is a member of `actions()`, and at
every depth `d ≥ 1` the best move `minimax` returns is a member of
`actions()`. -/
theorem reported_moves_legal (choice : List Int → Option Int) (pid : Nat) (s : Isolation)
    (hch : GoodChoice choice) (hterm : s.terminal_test = false) (hp : s.player = pid) :
    (∃ x, choice s.actions = some x ∧ x ∈ s.actions) ∧
    ∀ d : Nat, 1 ≤ d → ∃ mv, minimax choice pid s d = .ok (some mv) ∧ mv ∈ s.actions := by
  have hpid : pid < 2 := hp ▸ player_lt_two s
  constructor
  · obtain ⟨x, hx⟩ := Option.isSome_iff_exists.mp
      ((hch s.actions).2 (actions_ne_nil_of_nonterminal hterm))
    exact ⟨x, hx, (hch s.actions).1 x hx⟩
  · intro d hd
    obtain ⟨e, rfl⟩ : ∃ e, d = e + 1 := ⟨d - 1, by omega⟩
    obtain ⟨v, m, heq, -, hmove⟩ :=
      (searchSpec choice hch pid (e + 1)).1 s .ninf .pinf hpid (Val.blt_iff.mp rfl) hp
    obtain ⟨mv, rfl, hmem, -⟩ := hmove hterm e rfl
    refine ⟨mv, ?_, hmem⟩
    rw [minimax, heq]

/-- Witness for C8 at the same concrete state, with depth 2 for the deepening
loop's first iteration. -/
theorem reported_moves_legal_check :
    (∃ x, headChoice twoPlyState.actions = some x ∧ x ∈ twoPlyState.actions) ∧
    (∃ mv, minimax headChoice 0 twoPlyState 2 = .ok (some mv) ∧ mv ∈ twoPlyState.actions) :=
  ⟨(reported_moves_legal headChoice 0 twoPlyState goodChoice_head (by decide) (by decide)).1,
   (reported_moves_legal headChoice 0 twoPlyState goodChoice_head (by decide) (by decide)).2 2
     (by omega)⟩

/-- The `get_max` loop at depth 1 over non-terminal children: a pure running
maximum of the children's mobility scores, selecting a maximizer. -/
theorem loopMax_depth1 {choice : List Int → Option Int} {pid : Nat} {s : Isolation}
    (hchild : ∀ a ∈ s.actions, (s.resultD a).terminal_test = false) :
    ∀ (acts : List Int) (alpha : Val) (c : Int) (j : Int),
      (∀ a ∈ acts, a ∈ s.actions) → j ∈ s.actions → score_state (s.resultD j) pid = c →
      ∃ m mv,
        loopMax (fun t a b => get_min choice pid t a b 0) s .pinf acts alpha
          (some (.fin c)) (some j) = .ok (some (.fin m), some mv) ∧
        mv ∈ s.actions ∧ score_state (s.resultD mv) pid = m ∧ c ≤ m ∧
        ∀ a ∈ acts, score_state (s.resultD a) pid ≤ m := by
  intro acts
  induction acts with
  | nil =>
      intro alpha c j hsub hjmem hjs
      refine ⟨c, j, rfl, hjmem, hjs, le_rfl, ?_⟩
      intro a h
      cases h
  | cons a rest ih =>
      intro alpha c j hsub hjmem hjs
      have hamem : a ∈ s.actions := hsub a (List.mem_cons_self a rest)
      have hsubr : ∀ x ∈ rest, x ∈ s.actions := fun x hx => hsub x (List.mem_cons_of_mem a hx)
      have hres : s.result a = .ok (s.resultD a) := resultD_eq hamem
      have hgm : get_min choice pid (s.resultD a) alpha .pinf 0 =
          .ok (some (.fin (score_state (s.resultD a) pid)), none) := by
        rw [get_min_eq, if_neg (by simp [hchild a hamem])]
      by_cases hlt : Val.blt (.fin c) (.fin (score_state (s.resultD a) pid)) = true
      · have hclt : c < score_state (s.resultD a) pid :=
          Val.fin_lt_fin.mp (Val.blt_iff.mp hlt)
        obtain ⟨m, mv, heq, hmvmem, hms, hcm, hbound⟩ :=
          ih (if Val.blt alpha (.fin (score_state (s.resultD a) pid))
              then .fin (score_state (s.resultD a) pid) else alpha)
            (score_state (s.resultD a) pid) a hsubr hamem rfl
        refine ⟨m, mv, ?_, hmvmem, hms, le_trans (le_of_lt hclt) hcm, ?_⟩
        · simp only [loopMax, hres, hgm]
          rw [if_pos hlt, if_neg (by simp [Val.blt])]
          exact heq
        · intro x hx
          rcases List.mem_cons.mp hx with rfl | hx2
          · exact hcm
          · exact hbound x hx2
      · have hsc : score_state (s.resultD a) pid ≤ c := by
          rcases Bool.eq_false_or_eq_true (Val.blt (.fin c) (.fin (score_state (s.resultD a) pid)))
            with hb | hb
          · exact absurd hb hlt
          · exact Val.fin_le_fin.mp (Val.not_blt_iff.mp hb)
        obtain ⟨m, mv, heq, hmvmem, hms, hcm, hbound⟩ :=
          ih (if Val.blt alpha (.fin c) then .fin c else alpha) c j hsubr hjmem hjs
        refine ⟨m, mv, ?_, hmvmem, hms, hcm, ?_⟩
        · simp only [loopMax, hres, hgm]
          rw [if_neg hlt, if_neg (by simp [Val.blt])]
          exact heq
        · intro x hx
          rcases List.mem_cons.mp hx with rfl | hx2
          · exact le_trans hsc hcm
          · exact hbound x hx2

/-- C9 amended: on a non-terminal state all of whose immediate successors are
non-terminal, the depth-1 search returns a legal move maximizing the mobility
score of the immediate resulting state. -/
theorem depth1_greedy (choice : List Int → Option Int) (pid : Nat) (s : Isolation)
    (hterm : s.terminal_test = false)
    (hchild : ∀ a ∈ s.actions, (s.resultD a).terminal_test = false) :
    ∃ m mv, get_max choice pid s .ninf .pinf 1 = .ok (some (.fin m), some mv) ∧
      mv ∈ s.actions ∧ score_state (s.resultD mv) pid = m ∧
      ∀ a ∈ s.actions, score_state (s.resultD a) pid ≤ m := by
  cases hacts : s.actions with
  | nil => exact absurd hacts (actions_ne_nil_of_nonterminal hterm)
  | cons a0 rest =>
      have hmem0 : a0 ∈ s.actions := by
        rw [hacts]
        exact List.mem_cons_self _ _
      have hres : s.result a0 = .ok (s.resultD a0) := resultD_eq hmem0
      have hgm : get_min choice pid (s.resultD a0) .ninf .pinf 0 =
          .ok (some (.fin (score_state (s.resultD a0) pid)), none) := by
        rw [get_min_eq, if_neg (by simp [hchild a0 hmem0])]
      have hsubr : ∀ x ∈ rest, x ∈ s.actions := by
        intro x hx
        rw [hacts]
        exact List.mem_cons_of_mem _ hx
      obtain ⟨m, mv, heq, hmvmem, hms, hcm, hbound⟩ :=
        loopMax_depth1 hchild rest
          (if Val.blt .ninf (.fin (score_state (s.resultD a0) pid))
            then .fin (score_state (s.resultD a0) pid) else .ninf)
          (score_state (s.resultD a0) pid) a0 hsubr hmem0 rfl
      refine ⟨m, mv, ?_, hacts ▸ hmvmem, hms, ?_⟩
      · rw [get_max_eq, if_neg (by simp [hterm]), hacts]
        simp only [loopMax, hres, hgm]
        rw [if_neg (by simp [Val.blt])]
        exact heq
      · intro x hx
        rcases List.mem_cons.mp hx with rfl | hx2
        · exact hcm
        · exact hbound x hx2

/-- Witness for the amended C9 at the concrete reachable midgame state. -/
theorem depth1_greedy_check :
    ∃ m mv, get_max headChoice 0 twoPlyState .ninf .pinf 1 = .ok (some (.fin m), some mv) ∧
      mv ∈ twoPlyState.actions ∧ score_state (twoPlyState.resultD mv) 0 = m ∧
      ∀ a ∈ twoPlyState.actions, score_state (twoPlyState.resultD a) 0 ≤ m :=
  depth1_greedy headChoice 0 twoPlyState (by decide) (by decide)

/-- A state with a winning immediate capture of lower mobility than a quieter
alternative: the active player 0 at 50 can take player 1's last liberty (cell
75, via offset 25, leaving itself zero liberties) or step to cell 25 (via
offset -25) with three liberties against one. -/
def greedyCex : Isolation :=
  ⟨2 ^ 75 + 2 ^ 40 + 2 ^ 36 + 2 ^ 25 + 2 ^ 14, 2, (some 50, some 90)⟩

/-- C9 counterexample: on a non-terminal state, the depth-1 search selects the
winning capture (offset 25) even though the alternative legal move (offset
-25) has a strictly larger mobility score for the resulting state, so the
selected action does not maximize the Mobility Evaluator score. -/
theorem depth1_not_greedy_cex :
    greedyCex.terminal_test = false ∧ greedyCex.player = 0 ∧
      get_max headChoice 0 greedyCex .ninf .pinf 1 = .ok (some .pinf, some 25) ∧
      (-25 : Int) ∈ greedyCex.actions ∧
      score_state (greedyCex.resultD 25) 0 < score_state (greedyCex.resultD (-25)) 0 := by
  decide

end KnightIso
